import Mathlib

/-!
Verification of the `Path2File` processor from `PathToText.py`.

Text is modelled as `List Char`; file contents on disk are modelled as raw
bytes (`List Nat`).  The filesystem below the input folder is modelled as a
list of `FSEntry` trees.  Every definition is a shallow embedding of the
corresponding Python function, with the source location given in its doc
comment.  Paths appearing in diagnostics are modelled relative to the input
folder (the Python code prints them joined with the input-folder path).
-/

/-- Python string comparison on code points, as used by the sort key in
`_map_directory_structure` (line 193): lexicographic `<=` on the code points
of the characters. -/
def strLe : List Char → List Char → Bool
  | [], _ => true
  | _ :: _, [] => false
  | a :: as, b :: bs =>
    if a.toNat < b.toNat then true
    else if b.toNat < a.toNat then false
    else strLe as bs

theorem strLe_total : ∀ a b : List Char, strLe a b = true ∨ strLe b a = true := by
  intro a
  induction a with
  | nil => intro b; left; rfl
  | cons x xs ih =>
    intro b
    cases b with
    | nil => right; rfl
    | cons y ys =>
      by_cases h1 : x.toNat < y.toNat
      · left; simp [strLe, h1]
      · by_cases h2 : y.toNat < x.toNat
        · right; simp [strLe, h2]
        · rcases ih ys with h | h
          · left; simp [strLe, h1, h2, h]
          · right; simp [strLe, h1, h2, h]

theorem strLe_trans :
    ∀ a b c : List Char, strLe a b = true → strLe b c = true → strLe a c = true := by
  intro a
  induction a with
  | nil => intro b c _ _; rfl
  | cons x xs ih =>
    intro b c hab hbc
    cases b with
    | nil => simp [strLe] at hab
    | cons y ys =>
      cases c with
      | nil => simp [strLe] at hbc
      | cons z zs =>
        simp only [strLe] at hab hbc ⊢
        split at hab
        · -- x < y
          rename_i hxy
          split at hbc
          · rename_i hyz; simp [show x.toNat < z.toNat by omega]
          · split at hbc
            · exact absurd hbc (by simp)
            · rename_i hyz hzy
              simp [show x.toNat < z.toNat by omega]
        · split at hab
          · exact absurd hab (by simp)
          · rename_i hxy hyx
            -- x.toNat = y.toNat
            split at hbc
            · rename_i hyz; simp [show x.toNat < z.toNat by omega]
            · split at hbc
              · exact absurd hbc (by simp)
              · rename_i hyz hzy
                have hxz : ¬ x.toNat < z.toNat := by omega
                have hzx : ¬ z.toNat < x.toNat := by omega
                simp only [hxz, hzx, if_false, if_neg]
                exact ih ys zs hab hbc

/-- Stable insertion of an element into a sorted list: the element goes in
front of the first list entry it compares `le` to.  Together with `sortLe`
this models Python's stable `list.sort`. -/
def insertLe {α : Type} (le : α → α → Bool) (x : α) : List α → List α
  | [] => [x]
  | y :: ys => if le x y then x :: y :: ys else y :: insertLe le x ys

/-- Stable sort by a boolean comparison, modelling Python's
`entries.sort(key=...)` (stable sorts with the same total preorder agree). -/
def sortLe {α : Type} (le : α → α → Bool) : List α → List α
  | [] => []
  | x :: xs => insertLe le x (sortLe le xs)

theorem mem_insertLe {α : Type} (le : α → α → Bool) (x : α) :
    ∀ l z, z ∈ insertLe le x l → z = x ∨ z ∈ l := by
  intro l
  induction l with
  | nil => intro z hz; simp [insertLe] at hz; exact Or.inl hz
  | cons y ys ih =>
    intro z hz
    simp only [insertLe] at hz
    split at hz
    · rcases List.mem_cons.mp hz with h | h
      · exact Or.inl h
      · exact Or.inr h
    · rcases List.mem_cons.mp hz with h | h
      · exact Or.inr (by simp [h])
      · rcases ih z h with h' | h'
        · exact Or.inl h'
        · exact Or.inr (by simp [h'])

theorem pairwise_insertLe {α : Type} (le : α → α → Bool)
    (htot : ∀ a b, le a b = true ∨ le b a = true)
    (htr : ∀ a b c, le a b = true → le b c = true → le a c = true)
    (x : α) :
    ∀ l, List.Pairwise (fun a b => le a b = true) l →
      List.Pairwise (fun a b => le a b = true) (insertLe le x l) := by
  intro l
  induction l with
  | nil => intro _; simp [insertLe]
  | cons y ys ih =>
    intro h
    rcases List.pairwise_cons.mp h with ⟨hy, hys⟩
    simp only [insertLe]
    split
    · rename_i hxy
      refine List.pairwise_cons.mpr ⟨?_, h⟩
      intro z hz
      rcases hz with _ | hz
      · exact hxy
      · exact htr x y z hxy (hy _ (by assumption))
    · rename_i hxy
      have hyx : le y x = true := by
        rcases htot x y with h' | h'
        · exact absurd h' hxy
        · exact h'
      refine List.pairwise_cons.mpr ⟨?_, ih hys⟩
      intro z hz
      rcases mem_insertLe le x ys z hz with h' | h'
      · exact h' ▸ hyx
      · exact hy z h'

theorem pairwise_sortLe {α : Type} (le : α → α → Bool)
    (htot : ∀ a b, le a b = true ∨ le b a = true)
    (htr : ∀ a b c, le a b = true → le b c = true → le a c = true) :
    ∀ l, List.Pairwise (fun a b => le a b = true) (sortLe le l) := by
  intro l
  induction l with
  | nil => simp [sortLe]
  | cons x xs ih => exact pairwise_insertLe le htot htr x _ ih

/-- A filesystem entry under the input folder: a file with its name and raw
byte content, or a directory with its name and child entries. -/
inductive FSEntry : Type where
  | file (name : List Char) (content : List Nat)
  | dir (name : List Char) (entries : List FSEntry)

/-- Name of a filesystem entry. -/
def entryName : FSEntry → List Char
  | .file n _ => n
  | .dir n _ => n

/-- Whether an entry is a directory (`Path.is_dir`). -/
def entryIsDir : FSEntry → Bool
  | .file _ _ => false
  | .dir _ _ => true

/-- Child entries of an entry (empty for a file). -/
def childEntries : FSEntry → List FSEntry
  | .file _ _ => []
  | .dir _ es => es

/-- The configuration state built by `Path2File.__init__` (lines 25-54).
The input-folder and output paths are not part of the model: the filesystem
is passed explicitly and paths are taken relative to the input folder. -/
structure Config : Type where
  included_file_types : List (List Char)
  excluded_file_types : List (List Char)
  excluded_folders : List (List Char)
  map_only : Bool
  ignored_patterns : List (List Char)

/-- `DEFAULT_FILE_NAME = "Merged.md"` (line 11). -/
def DEFAULT_FILE_NAME : List Char := "Merged.md".toList

/-- `STANDARD_EXCLUDED_FILE_TYPES` (lines 12-17). -/
def STANDARD_EXCLUDED_FILE_TYPES : List (List Char) :=
  [".DS_Store".toList, ".gitignore".toList, ".lock".toList, DEFAULT_FILE_NAME]

/-- `STANDARD_EXCLUDED_PATHS` (lines 18-23). -/
def STANDARD_EXCLUDED_PATHS : List (List Char) :=
  [".git".toList, ".venv".toList, "__pycache__".toList, ".ruff_cache".toList]

/-- `Path2File.__init__` (lines 25-54): the standard exclusion lists are
prepended to the caller-supplied ones, and `ignored_patterns` starts empty. -/
def mkConfig (included_file_types excluded_file_types excluded_folders : List (List Char))
    (map_only : Bool) : Config :=
  { included_file_types := included_file_types
    excluded_file_types := STANDARD_EXCLUDED_FILE_TYPES ++ excluded_file_types
    excluded_folders := STANDARD_EXCLUDED_PATHS ++ excluded_folders
    map_only := map_only
    ignored_patterns := [] }

/-- Python `str.endswith`: `ext` is a suffix of `name` (the empty extension
matches every name, as in Python). -/
def endsWith (name ext : List Char) : Bool := ext.isSuffixOf name

/-- `Path2File._file_matches_criteria` (lines 141-149): the exclusion clause
(list empty, or no excluded extension is a suffix) and the inclusion clause
(list empty, or some included extension is a suffix) must both hold. -/
def file_matches_criteria (excluded_file_types included_file_types : List (List Char))
    (file_name : List Char) : Bool :=
  (excluded_file_types.isEmpty || !(excluded_file_types.any fun ext => endsWith file_name ext))
    && (included_file_types.isEmpty || included_file_types.any fun ext => endsWith file_name ext)

/-- One token of the simplified regular expression that
`Path2File._is_ignored` (lines 133-139) builds from a `.gitignore` line by
`pattern.replace("*", ".*")`: `star` is the any-sequence regex `.*` that a
literal `*` turns into, `dot` is the any-character regex `.` (a literal `.`
of the pattern is a regex metacharacter in the Python code), and `lit c` is
any other character, matched literally.  This is a simplification: it gives
only the literal/`.`/`*` fragment of the semantics of `re.fullmatch`, which
additionally treats characters such as brackets, `?`, `+`, `|`, `^`, `$`
and backslash as metacharacters, raises on malformed patterns, and does not
let `.` match a newline.  The theorems below use this matcher only on
patterns inside the agreeing fragment (a literal file name) or on an empty
pattern list, where it coincides with the code. -/
inductive GTok : Type where
  | lit (c : Char)
  | dot
  | star
deriving DecidableEq

/-- The token list of the regex `pattern.replace("*", ".*")` (line 137). -/
def globTranslate (pattern : List Char) : List GTok :=
  pattern.map fun c => if c = '*' then GTok.star else if c = '.' then GTok.dot else GTok.lit c

/-- Full-string matching of the simplified regex against a string, as
`re.fullmatch` does on line 137: `star` consumes any (possibly empty)
sequence of characters, `dot` exactly one, `lit c` exactly `c`. -/
def tmatch : List GTok → List Char → Bool
  | [], xs => xs.isEmpty
  | GTok.lit c :: ts, xs =>
    match xs with
    | [] => false
    | x :: xr => c == x && tmatch ts xr
  | GTok.dot :: ts, xs =>
    match xs with
    | [] => false
    | _ :: xr => tmatch ts xr
  | GTok.star :: ts, xs => (List.tails xs).any fun suf => tmatch ts suf

/-- `Path2File._is_ignored` (lines 133-139): some stored pattern, translated
to the simplified regex, full-matches the path relative to the root. -/
def is_ignored (ignored_patterns : List (List Char)) (relative_path : List Char) : Bool :=
  ignored_patterns.any fun pattern => tmatch (globTranslate pattern) relative_path

/-- Index of the last `.` in a name, if any (Python `str.rfind`). -/
def rfindDot (name : List Char) : Option Nat :=
  ((name.enum.filter fun p => p.2 == '.').getLast?).map fun p => p.1

/-- `pathlib.PurePath.suffix`, used on line 154: the part of the name from
its last dot on, unless that dot is the first or the last character. -/
def pathSuffix (name : List Char) : List Char :=
  match rfindDot name with
  | none => []
  | some i => if 0 < i ∧ i + 1 < name.length then name.drop i else []

/-- `supported_extensions` of `_process_file` (line 157). -/
def supportedExtensions : List (List Char) :=
  [".pdf".toList, ".pptx".toList, ".docx".toList, ".xlsx".toList]

/-- The Unicode replacement character U+FFFD. -/
def replChar : Char := '�'

/-- Whether a byte is a UTF-8 continuation byte (`0x80`-`0xBF`). -/
def isCont (b : Nat) : Bool := 128 ≤ b && b ≤ 191

/-- Valid second bytes of a three-byte UTF-8 sequence led by `b` (excludes
overlong encodings for `0xE0` and surrogates for `0xED`). -/
def cont2ok3 (b b2 : Nat) : Bool :=
  if b = 224 then 160 ≤ b2 && b2 ≤ 191
  else if b = 237 then 128 ≤ b2 && b2 ≤ 159
  else isCont b2

/-- Valid second bytes of a four-byte UTF-8 sequence led by `b` (excludes
overlong encodings for `0xF0` and code points beyond U+10FFFF for `0xF4`). -/
def cont2ok4 (b b2 : Nat) : Bool :=
  if b = 240 then 144 ≤ b2 && b2 ≤ 191
  else if b = 244 then 128 ≤ b2 && b2 ≤ 143
  else isCont b2

/-- Fuel-indexed core of `utf8DecodeReplace`; the fuel only drives the
structural recursion and is always at least the number of bytes left, so the
zero case is never reached from `utf8DecodeReplace`. -/
def utf8DecodeFuel : Nat → List Nat → List Char
  | 0, _ => []
  | _ + 1, [] => []
  | fuel + 1, b :: rest =>
    if b ≤ 127 then Char.ofNat b :: utf8DecodeFuel fuel rest
    else if b ≤ 193 then replChar :: utf8DecodeFuel fuel rest
    else if b ≤ 223 then
      match rest with
      | [] => [replChar]
      | b2 :: rest2 =>
        if isCont b2 then
          Char.ofNat ((b - 192) * 64 + (b2 - 128)) :: utf8DecodeFuel fuel rest2
        else replChar :: utf8DecodeFuel fuel rest
    else if b ≤ 239 then
      match rest with
      | [] => [replChar]
      | b2 :: rest2 =>
        if cont2ok3 b b2 then
          match rest2 with
          | [] => [replChar]
          | b3 :: rest3 =>
            if isCont b3 then
              Char.ofNat ((b - 224) * 4096 + (b2 - 128) * 64 + (b3 - 128)) :: utf8DecodeFuel fuel rest3
            else replChar :: utf8DecodeFuel fuel rest2
        else replChar :: utf8DecodeFuel fuel rest
    else if b ≤ 244 then
      match rest with
      | [] => [replChar]
      | b2 :: rest2 =>
        if cont2ok4 b b2 then
          match rest2 with
          | [] => [replChar]
          | b3 :: rest3 =>
            if isCont b3 then
              match rest3 with
              | [] => [replChar]
              | b4 :: rest4 =>
                if isCont b4 then
                  Char.ofNat ((b - 240) * 262144 + (b2 - 128) * 4096 + (b3 - 128) * 64 + (b4 - 128))
                    :: utf8DecodeFuel fuel rest4
                else replChar :: utf8DecodeFuel fuel rest3
            else replChar :: utf8DecodeFuel fuel rest2
        else replChar :: utf8DecodeFuel fuel rest
    else replChar :: utf8DecodeFuel fuel rest

/-- Python `bytes.decode("utf-8", errors="replace")` (line 165): decode
UTF-8, and where decoding fails emit U+FFFD for the maximal valid prefix of
a sequence (or for the single offending byte) and continue at the next
byte.  The function is total: it never fails on malformed input. -/
def utf8DecodeReplace (content : List Nat) : List Char :=
  utf8DecodeFuel content.length content

/-- Joining a relative directory path with an entry name, modelling
`root_path / file` taken relative to the input folder. -/
def childPath (rel name : List Char) : List Char :=
  if rel.isEmpty then name else rel ++ "/".toList ++ name

/-- The diagnostic of line 91. -/
def skipMessage (path : List Char) : List Char :=
  "Skipping file ".toList ++ path ++ ": Matched .gitignore pattern.".toList

/-- The diagnostic of line 170; the printed size is the byte length. -/
def processedMessage (path : List Char) (size : Nat) : List Char :=
  "Processed file ".toList ++ path ++ ": size ".toList ++ Nat.toDigits 10 size ++ " bytes".toList

/-- The diagnostic of line 167. -/
def errorMessage (path errText : List Char) : List Char :=
  "Error processing file ".toList ++ path ++ ": ".toList ++ errText

/-- The formatted section of line 171: heading with the relative path, then
a fenced block labelled with the extension without its leading dot. -/
def fileSection (relative_path file_extension file_content : List Char) : List Char :=
  "## ".toList ++ relative_path ++ "\n".toList
    ++ "```".toList ++ file_extension.drop 1 ++ "\n".toList
    ++ file_content ++ "\n```\n\n".toList

/-- `Path2File._process_file` (lines 151-171).  `conv` is the external
`MarkItDown.convert` capability (a black box per the design); its failure is
the caught exception of line 166.  Returns the optional section (Python
returns `None` on failure) together with the printed diagnostics. -/
def process_file (conv : List Char → Except (List Char) (List Char))
    (rel name : List Char) (content : List Nat) : Option (List Char) × List (List Char) :=
  let relative_path := childPath rel name
  let file_extension := pathSuffix name
  if supportedExtensions.any (fun ext => ext.isSuffixOf file_extension) then
    match conv relative_path with
    | Except.error e => (none, [errorMessage relative_path e])
    | Except.ok txt =>
        (some (fileSection relative_path file_extension txt),
         [processedMessage relative_path content.length])
  else
    (some (fileSection relative_path file_extension (utf8DecodeReplace content)),
     [processedMessage relative_path content.length])

/-- The per-file body of the loop in `fetch_all_files` (lines 88-97):
an ignored file is skipped with a diagnostic; otherwise the filter of
`_file_matches_criteria` decides whether `_process_file` runs. -/
def fetchOneFile (conv : List Char → Except (List Char) (List Char)) (cfg : Config)
    (rel : List Char) : FSEntry → List (List Char) × List (List Char)
  | .dir _ _ => ([], [])
  | .file name content =>
    let file_path := childPath rel name
    if is_ignored cfg.ignored_patterns file_path then
      ([], [skipMessage file_path])
    else if file_matches_criteria cfg.excluded_file_types cfg.included_file_types name then
      match process_file conv rel name content with
      | (some file_data, log) => ([file_data], log)
      | (none, log) => ([], log)
    else ([], [])

/-- The walk of `fetch_all_files` (lines 78-98): at each directory the
subdirectories are pruned by the ignore patterns and the excluded-folder
names, the files of the current directory are handled in order, and the
surviving subdirectories are visited recursively.  `fuel` bounds the
recursion depth; callers pass a bound at least the nesting depth. -/
def fetchDirFuel (conv : List Char → Except (List Char) (List Char)) (cfg : Config) :
    Nat → List Char → List FSEntry → List (List Char) × List (List Char)
  | 0, _, _ => ([], [])
  | fuel + 1, rel, entries =>
    let dirEntries := entries.filter entryIsDir
    let fileEntries := entries.filter fun e => !entryIsDir e
    let keptDirs := dirEntries.filter fun d =>
      !is_ignored cfg.ignored_patterns (childPath rel (entryName d))
        && !(cfg.excluded_folders.contains (entryName d))
    let fileResults := fileEntries.map (fetchOneFile conv cfg rel)
    let subResults := keptDirs.map fun d =>
      fetchDirFuel conv cfg fuel (childPath rel (entryName d)) (childEntries d)
    ((fileResults.map Prod.fst).flatten ++ (subResults.map Prod.fst).flatten,
     (fileResults.map Prod.snd).flatten ++ (subResults.map Prod.snd).flatten)

/-- Splitting text into lines at `'\n'`, modelling iteration over the lines
of the `.gitignore` file. -/
def splitLines : List Char → List (List Char)
  | [] => [[]]
  | c :: rest =>
    if c = '\n' then [] :: splitLines rest
    else
      match splitLines rest with
      | [] => [[c]]
      | l :: ls => (c :: l) :: ls

/-- Python `str.strip`: drop whitespace from both ends of a line. -/
def stripChars (l : List Char) : List Char :=
  ((l.dropWhile Char.isWhitespace).reverse.dropWhile Char.isWhitespace).reverse

/-- `Path2File._read_gitignore` (lines 122-131): if a `.gitignore` exists
(`some text`), the stored patterns become its stripped non-empty
non-comment lines; otherwise (`none`) the stored patterns are unchanged. -/
def read_gitignore (gitignore : Option (List Char)) (current : List (List Char)) :
    List (List Char) :=
  match gitignore with
  | none => current
  | some text =>
    ((splitLines text).map stripChars).filter fun l => !l.isEmpty && !(l.headD ' ' == '#')

mutual

/-- Structural weight of an entry, strictly larger than its nesting depth. -/
def entryWeight : FSEntry → Nat
  | .file _ _ => 1
  | .dir _ es => 1 + forestWeight es

/-- Structural weight of a forest, strictly larger than its nesting depth. -/
def forestWeight : List FSEntry → Nat
  | [] => 1
  | e :: rest => entryWeight e + forestWeight rest

end

/-- Recursion fuel for the directory walks: always at least the nesting
depth of the forest, so the fuel never runs out on the modelled tree. -/
def fuelFor (entries : List FSEntry) : Nat := forestWeight entries

/-- `Path2File.fetch_all_files` (lines 70-98): nothing is enumerated in
map-only mode; otherwise `.gitignore` is read and the walk collects the
sections (first component) while printing diagnostics (second component). -/
def fetch_all_files (conv : List Char → Except (List Char) (List Char)) (cfg : Config)
    (gitignore : Option (List Char)) (root : List FSEntry) :
    List (List Char) × List (List Char) :=
  if cfg.map_only then ([], [])
  else
    fetchDirFuel conv { cfg with ignored_patterns := read_gitignore gitignore cfg.ignored_patterns }
      (fuelFor root) [] root

/-- The sort key of line 193, `(not entry.is_dir(), entry.name)`, as a
boolean comparison: directories come before files, and within each group
names are compared as Python strings. -/
def entryLe (x y : FSEntry) : Bool :=
  if entryIsDir x = entryIsDir y then strLe (entryName x) (entryName y) else entryIsDir x

/-- The glyph before a non-last entry (line 197). -/
def teeGlyph : List Char := "├── ".toList

/-- The glyph before the last entry of a directory (line 197). -/
def cornerGlyph : List Char := "└── ".toList

/-- The continuation indent when the parent is not the last sibling
(line 201). -/
def barIndent : List Char := "│   ".toList

/-- The blank indent when the parent is the last sibling (line 201). -/
def blankIndent : List Char := "    ".toList

/-- The `recursive_list` generator of `_map_directory_structure`
(lines 181-203): drop the entries whose name is in the combined exclusion
list, sort them with directories first and alphabetically within each
group, and emit one line per entry, recursing into subdirectories with the
extended indent.  `fuel` bounds the recursion depth; callers pass a bound
at least the nesting depth.  (The model omits the `PermissionError` branch:
the modelled filesystem is always listable.) -/
def renderDirFuel (excl : List (List Char)) : Nat → List Char → List FSEntry → List (List Char)
  | 0, _, _ => []
  | fuel + 1, pre, entries =>
    let shown := sortLe entryLe (entries.filter fun e => !(excl.contains (entryName e)))
    let n := shown.length
    (shown.enum.map fun ie =>
      let isLast := ie.1 = n - 1
      let line := pre ++ (if isLast then cornerGlyph else teeGlyph) ++ entryName ie.2
      match ie.2 with
      | .file _ _ => [line]
      | .dir _ children =>
        line :: renderDirFuel excl fuel (pre ++ (if isLast then blankIndent else barIndent))
          children).flatten

/-- `Path2File._map_directory_structure` (lines 173-204): the rendered
lines, joined by newlines.  The exclusion list is
`excluded_folders + excluded_file_types` (line 191); the ignore patterns
play no part. -/
def mapDirectoryStructure (cfg : Config) (root : List FSEntry) : List Char :=
  List.intercalate "\n".toList
    (renderDirFuel (cfg.excluded_folders ++ cfg.excluded_file_types) (fuelFor root) [] root)

/-- The message of line 103. -/
def noFilesMessage : List Char := "No Files in this Directory. Done.".toList

/-- The text written by lines 105-111: the folder-structure heading, the
fenced tree, and, when any sections were collected, the file-contents
heading followed by every section in order. -/
def renderOutput (cfg : Config) (root : List FSEntry) (files_data : List (List Char)) :
    List Char :=
  "# Folder Structure\n".toList ++ "```\n".toList ++ mapDirectoryStructure cfg root
    ++ "\n```".toList
    ++ (if files_data.isEmpty then []
        else "\n\n# File Contents\n".toList ++ files_data.flatten)

/-- `Path2File.write_to_file` (lines 100-112): with no sections and map-only
unset, print the no-files message and return without touching the output
file (`none`); otherwise write the document (`some text`) and succeed. -/
def write_to_file (cfg : Config) (root : List FSEntry) (files_data : List (List Char)) :
    Option (List Char) × List (List Char) :=
  if files_data.isEmpty && !cfg.map_only then (none, [noFilesMessage])
  else (some (renderOutput cfg root files_data), [])

/-- The run of at most two newlines that a pending run of `k` newlines is
emitted as. -/
def emitRun (k : Nat) : List Char := List.replicate (min k 2) '\n'

/-- State-machine core of the cleanup: `k` newlines have been read and not
yet emitted; a maximal run is emitted capped at two newlines, which is the
effect of `re.sub("\\n{3,}", "\\n\\n", text)` with its leftmost-longest
matching. -/
def cleanRun : Nat → List Char → List Char
  | k, [] => emitRun k
  | k, c :: rest => if c = '\n' then cleanRun (k + 1) rest else emitRun k ++ c :: cleanRun 0 rest

/-- `Path2File.clean_up_text` (lines 114-120) on the file text: every run of
three or more consecutive newlines is replaced by exactly two. -/
def clean_up_text (text : List Char) : List Char := cleanRun 0 text

/-- Whether three consecutive newline characters occur anywhere in a text. -/
def hasTripleNewline : List Char → Bool
  | a :: b :: c :: rest =>
    (a == '\n' && b == '\n' && c == '\n') || hasTripleNewline (b :: c :: rest)
  | _ => false

/-- Whether `pat` occurs as a contiguous segment of a text. -/
def occursIn (pat : List Char) : List Char → Bool
  | [] => pat.isEmpty
  | c :: rest => pat.isPrefixOf (c :: rest) || occursIn pat rest

/-- Claim C1: a file name matches the criteria exactly when the
excluded-extensions list is empty or no excluded extension is a suffix of
the name, and the included-extensions list is empty or some included
extension is a suffix of the name; in particular a name ending with an
excluded extension never matches, whatever the include list. -/
theorem file_matches_criteria_spec (excluded included : List (List Char)) (fn : List Char) :
    (file_matches_criteria excluded included fn = true ↔
      ((excluded = [] ∨ ∀ ext ∈ excluded, endsWith fn ext = false) ∧
       (included = [] ∨ ∃ ext ∈ included, endsWith fn ext = true))) ∧
    ((∃ ext ∈ excluded, endsWith fn ext = true) →
      file_matches_criteria excluded included fn = false) := by
  constructor
  · simp only [file_matches_criteria, Bool.and_eq_true, Bool.or_eq_true,
      List.isEmpty_iff, Bool.not_eq_true', List.any_eq_true, List.any_eq_false,
      Bool.not_eq_true]
  · rintro ⟨ext, hmem, hsuf⟩
    have hne : excluded ≠ [] := by
      intro h; rw [h] at hmem; exact absurd hmem (List.not_mem_nil ext)
    simp only [file_matches_criteria, Bool.and_eq_false_iff]
    left
    simp only [Bool.or_eq_false_iff]
    constructor
    · simpa [List.isEmpty_iff] using hne
    · simp only [Bool.not_eq_false', List.any_eq_true]
      exact ⟨ext, hmem, hsuf⟩

/-- Witness for C1 at concrete inputs: `a.log` is excluded by `.log` even
though it is also matched by the include list. -/
theorem file_matches_criteria_spec_witness :
    file_matches_criteria [".log".toList] [".log".toList] "a.log".toList = false ∧
    file_matches_criteria [] [".py".toList] "a.py".toList = true := by
  constructor
  · exact (file_matches_criteria_spec [".log".toList] [".log".toList] "a.log".toList).2
      ⟨".log".toList, by simp, by decide⟩
  · exact (file_matches_criteria_spec [] [".py".toList] "a.py".toList).1.mpr
      ⟨Or.inl rfl, Or.inr ⟨".py".toList, by simp, by decide⟩⟩

/-- Claim C4: whatever the caller supplies, the constructed configuration's
excluded-file-type list contains every standard entry (`.DS_Store`,
`.gitignore`, `.lock`, the default output name `Merged.md`) and its
excluded-folder list contains every standard entry (`.git`, `.venv`,
`__pycache__`, `.ruff_cache`), in addition to the caller-supplied entries. -/
theorem mkConfig_standard_exclusions
    (included excluded folders : List (List Char)) (map_only : Bool) :
    (mkConfig included excluded folders map_only).excluded_file_types
        = STANDARD_EXCLUDED_FILE_TYPES ++ excluded ∧
    (mkConfig included excluded folders map_only).excluded_folders
        = STANDARD_EXCLUDED_PATHS ++ folders ∧
    ".DS_Store".toList ∈ (mkConfig included excluded folders map_only).excluded_file_types ∧
    ".gitignore".toList ∈ (mkConfig included excluded folders map_only).excluded_file_types ∧
    ".lock".toList ∈ (mkConfig included excluded folders map_only).excluded_file_types ∧
    DEFAULT_FILE_NAME ∈ (mkConfig included excluded folders map_only).excluded_file_types ∧
    (∀ t ∈ excluded, t ∈ (mkConfig included excluded folders map_only).excluded_file_types) ∧
    ".git".toList ∈ (mkConfig included excluded folders map_only).excluded_folders ∧
    ".venv".toList ∈ (mkConfig included excluded folders map_only).excluded_folders ∧
    "__pycache__".toList ∈ (mkConfig included excluded folders map_only).excluded_folders ∧
    ".ruff_cache".toList ∈ (mkConfig included excluded folders map_only).excluded_folders ∧
    (∀ t ∈ folders, t ∈ (mkConfig included excluded folders map_only).excluded_folders) := by
  refine ⟨rfl, rfl, ?_, ?_, ?_, ?_, fun t ht => List.mem_append_right _ ht,
      ?_, ?_, ?_, ?_, fun t ht => List.mem_append_right _ ht⟩ <;>
    simp [mkConfig, STANDARD_EXCLUDED_FILE_TYPES, STANDARD_EXCLUDED_PATHS]

/-- Witness for C4 with caller-supplied entries present. -/
theorem mkConfig_standard_exclusions_witness :
    ".lock".toList ∈ (mkConfig [] [".svg".toList] [" build".toList] false).excluded_file_types ∧
    ".svg".toList ∈ (mkConfig [] [".svg".toList] [" build".toList] false).excluded_file_types := by
  have h := mkConfig_standard_exclusions [] [".svg".toList] [" build".toList] false
  exact ⟨h.2.2.2.2.1, h.2.2.2.2.2.2.1 _ (by simp)⟩

/-- Claim C5: the writer returns the no-op outcome (no output text) exactly
when there are no sections and map-only is unset, in which case it prints
the no-files message; in every other case it produces the output text. -/
theorem write_to_file_spec (cfg : Config) (root : List FSEntry)
    (files_data : List (List Char)) :
    ((write_to_file cfg root files_data).1 = none ↔
        files_data = [] ∧ cfg.map_only = false) ∧
    (files_data = [] ∧ cfg.map_only = false →
        (write_to_file cfg root files_data).2 = [noFilesMessage]) ∧
    (¬(files_data = [] ∧ cfg.map_only = false) →
        (write_to_file cfg root files_data).1
          = some (renderOutput cfg root files_data)) := by
  by_cases h : files_data = [] ∧ cfg.map_only = false
  · refine ⟨?_, fun _ => ?_, fun hc => absurd h hc⟩
    · simp [write_to_file, h.1, h.2]
    · simp [write_to_file, h.1, h.2]
  · have hcond : (files_data.isEmpty && !cfg.map_only) = false := by
      rcases Decidable.not_and_iff_or_not.mp h with h' | h'
      · simp [List.isEmpty_iff, h']
      · simp [Bool.not_eq_false] at h'
        simp [h']
    refine ⟨?_, fun hc => absurd hc h, fun _ => ?_⟩
    · simp [write_to_file, hcond, h]
    · simp [write_to_file, hcond]

/-- Witness for C5: an empty run without map-only is a no-op with the
message; with map-only set the document is produced. -/
theorem write_to_file_spec_witness :
    (write_to_file (mkConfig [] [] [] false) [] []).1 = none ∧
    (write_to_file (mkConfig [] [] [] false) [] []).2 = [noFilesMessage] ∧
    (write_to_file (mkConfig [] [] [] true) [] []).1
      = some (renderOutput (mkConfig [] [] [] true) [] []) := by
  refine ⟨?_, ?_, ?_⟩
  · exact ((write_to_file_spec (mkConfig [] [] [] false) [] []).1).mpr ⟨rfl, rfl⟩
  · exact (write_to_file_spec (mkConfig [] [] [] false) [] []).2.1 ⟨rfl, rfl⟩
  · exact (write_to_file_spec (mkConfig [] [] [] true) [] []).2.2 (by simp [mkConfig])

theorem entryLe_total : ∀ x y : FSEntry, entryLe x y = true ∨ entryLe y x = true := by
  intro x y
  unfold entryLe
  by_cases h : entryIsDir x = entryIsDir y
  · simp only [h, if_pos rfl, if_pos h.symm]
    exact strLe_total _ _
  · have h' : entryIsDir y ≠ entryIsDir x := fun hc => h hc.symm
    simp only [if_neg h, if_neg h']
    cases hx : entryIsDir x
    · cases hy : entryIsDir y
      · exact absurd (hx.trans hy.symm) h
      · exact Or.inr rfl
    · exact Or.inl rfl

theorem entryLe_trans :
    ∀ x y z : FSEntry, entryLe x y = true → entryLe y z = true → entryLe x z = true := by
  intro x y z
  unfold entryLe
  by_cases hxy : entryIsDir x = entryIsDir y
  · by_cases hyz : entryIsDir y = entryIsDir z
    · simp only [if_pos hxy, if_pos hyz, if_pos (hxy.trans hyz)]
      exact strLe_trans _ _ _
    · simp only [if_pos hxy, if_neg hyz, if_neg (hxy ▸ hyz : entryIsDir x ≠ entryIsDir z)]
      intro _ h
      exact hxy ▸ h
  · by_cases hyz : entryIsDir y = entryIsDir z
    · simp only [if_neg hxy, if_pos hyz, if_neg (fun hc : entryIsDir x = entryIsDir z => hxy (hc.trans hyz.symm))]
      intro h _
      exact h
    · simp only [if_neg hxy, if_neg hyz]
      intro h1 h2
      exact absurd (h1.trans h2.symm) hxy

/-- Claim C6: the tree renderer sorts the entries of every directory with
directories before files and alphabetically within each group (the list it
renders is pairwise `entryLe`-ordered), and on a folder holding a
subfolder `x` (with file `f.txt`) and a file `y.txt` it produces exactly
the three lines `├── x`, `│   └── f.txt`, `└── y.txt` with the glyphs and
indents of the claim. -/
theorem map_directory_structure_spec :
    (∀ entries : List FSEntry,
      List.Pairwise (fun a b => entryLe a b = true) (sortLe entryLe entries)) ∧
    mapDirectoryStructure (mkConfig [] [] [] false)
        [FSEntry.dir "x".toList [FSEntry.file "f.txt".toList []],
         FSEntry.file "y.txt".toList []]
      = "├── x\n│   └── f.txt\n└── y.txt".toList := by
  constructor
  · exact pairwise_sortLe entryLe entryLe_total entryLe_trans
  · decide

/-- Claim C8: the tree rendering is one and the same for any two
configurations that differ only in their `.gitignore` pattern list, and a
file whose name is matched by a pattern still appears in the rendered
tree. -/
theorem map_directory_structure_ignores_patterns :
    (∀ cfg : Config, ∀ p1 p2 : List (List Char), ∀ root : List FSEntry,
      mapDirectoryStructure { cfg with ignored_patterns := p1 } root
        = mapDirectoryStructure { cfg with ignored_patterns := p2 } root) ∧
    (is_ignored ["y.txt".toList] "y.txt".toList = true ∧
      occursIn "└── y.txt".toList
        (mapDirectoryStructure
          { mkConfig [] [] [] false with ignored_patterns := ["y.txt".toList] }
          [FSEntry.file "y.txt".toList []]) = true) := by
  refine ⟨fun cfg p1 p2 root => rfl, by decide, by decide⟩

theorem hasTriple_short : ∀ l : List Char, l.length ≤ 2 → hasTripleNewline l = false := by
  intro l h
  rcases l with _ | ⟨a, _ | ⟨b, _ | ⟨c, r⟩⟩⟩
  · rfl
  · rfl
  · rfl
  · simp at h

theorem hasTriple_cons_of (x : Char) :
    ∀ t, hasTripleNewline t = true → hasTripleNewline (x :: t) = true := by
  intro t h
  rcases t with _ | ⟨a, _ | ⟨b, r⟩⟩
  · simp [hasTripleNewline] at h
  · simp [hasTripleNewline] at h
  · simp only [hasTripleNewline, Bool.or_eq_true]
    exact Or.inr h

theorem hasTriple_append_right :
    ∀ pat s : List Char, hasTripleNewline pat = true → hasTripleNewline (pat ++ s) = true
  | a :: b :: c :: r, s, h => by
    simp only [hasTripleNewline, Bool.or_eq_true, List.cons_append] at h ⊢
    rcases h with h | h
    · exact Or.inl h
    · exact Or.inr (hasTriple_append_right (b :: c :: r) s h)
  | [], _, h => by simp [hasTripleNewline] at h
  | [a], _, h => by simp [hasTripleNewline] at h
  | [a, b], _, h => by simp [hasTripleNewline] at h

theorem hasTriple_append_left_of :
    ∀ s t : List Char, hasTripleNewline t = true → hasTripleNewline (s ++ t) = true := by
  intro s
  induction s with
  | nil => intro t h; simpa using h
  | cons x xs ih =>
    intro t h
    rw [List.cons_append]
    exact hasTriple_cons_of x _ (ih t h)

theorem hasTriple_cons_ne (c : Char) (s : List Char) (h : c ≠ '\n') :
    hasTripleNewline (c :: s) = hasTripleNewline s := by
  rcases s with _ | ⟨a, _ | ⟨b, r⟩⟩
  · rfl
  · rfl
  · simp [hasTripleNewline, h]

theorem hasTriple_nl_cons (c : Char) (s : List Char) (h : c ≠ '\n') :
    hasTripleNewline ('\n' :: c :: s) = hasTripleNewline (c :: s) := by
  rcases s with _ | ⟨a, r⟩
  · rfl
  · simp [hasTripleNewline, h]

theorem hasTriple_two_nl_cons (c : Char) (s : List Char) (h : c ≠ '\n') :
    hasTripleNewline ('\n' :: '\n' :: c :: s) = hasTripleNewline (c :: s) := by
  have h1 : hasTripleNewline ('\n' :: '\n' :: c :: s) = hasTripleNewline ('\n' :: c :: s) := by
    simp [hasTripleNewline, h]
  rw [h1, hasTriple_nl_cons c s h]

theorem hasTriple_emit_cons (k : Nat) (c : Char) (s : List Char) (h : c ≠ '\n') :
    hasTripleNewline (emitRun k ++ c :: s) = hasTripleNewline s := by
  have hm : min k 2 = 0 ∨ min k 2 = 1 ∨ min k 2 = 2 := by omega
  unfold emitRun
  rcases hm with hm | hm | hm <;> rw [hm]
  · rw [List.replicate_zero, List.nil_append, hasTriple_cons_ne c s h]
  · rw [List.replicate_one, List.singleton_append, hasTriple_nl_cons c s h,
      hasTriple_cons_ne c s h]
  · rw [show List.replicate 2 '\n' = ['\n', '\n'] from rfl]
    rw [show ['\n', '\n'] ++ c :: s = '\n' :: '\n' :: c :: s from rfl]
    rw [hasTriple_two_nl_cons c s h, hasTriple_cons_ne c s h]

theorem cleanRun_noTriple : ∀ (t : List Char) (k : Nat),
    hasTripleNewline (cleanRun k t) = false := by
  intro t
  induction t with
  | nil =>
    intro k
    exact hasTriple_short (emitRun k) (by simp [emitRun])
  | cons c rest ih =>
    intro k
    by_cases hc : c = '\n'
    · rw [show cleanRun k (c :: rest) = cleanRun (k + 1) rest from by simp [cleanRun, hc]]
      exact ih (k + 1)
    · rw [show cleanRun k (c :: rest) = emitRun k ++ c :: cleanRun 0 rest from by
        simp [cleanRun, hc]]
      rw [hasTriple_emit_cons k c _ hc]
      exact ih 0

theorem cleanRun_fix : ∀ (t : List Char) (k : Nat), k ≤ 2 →
    hasTripleNewline (List.replicate k '\n' ++ t) = false →
    cleanRun k t = List.replicate k '\n' ++ t := by
  intro t
  induction t with
  | nil =>
    intro k hk _
    show emitRun k = _
    simp [emitRun, Nat.min_eq_left hk]
  | cons c rest ih =>
    intro k hk h
    by_cases hc : c = '\n'
    · subst hc
      have hrep : List.replicate k '\n' ++ '\n' :: rest
          = List.replicate (k + 1) '\n' ++ rest := by
        rw [List.replicate_succ']
        simp
    -- the pending run grows; it cannot already have reached three newlines
      have hk1 : k + 1 ≤ 2 := by
        by_contra hgt
        have hk2 : k = 2 := by omega
        subst hk2
        rw [hrep] at h
        simp [List.replicate, hasTripleNewline] at h
      rw [show cleanRun k ('\n' :: rest) = cleanRun (k + 1) rest from by simp [cleanRun]]
      rw [hrep] at h ⊢
      exact ih (k + 1) hk1 h
    · have hrest : hasTripleNewline rest = false := by
        cases hr : hasTripleNewline rest
        · rfl
        · have h1 := hasTriple_cons_of c rest hr
          have h2 := hasTriple_append_left_of (List.replicate k '\n') (c :: rest) h1
          rw [h2] at h
          exact absurd h (by simp)
      rw [show cleanRun k (c :: rest) = emitRun k ++ c :: cleanRun 0 rest from by
        simp [cleanRun, hc]]
      rw [ih 0 (by omega) (by simpa using hrest)]
      simp [emitRun, Nat.min_eq_left hk]

theorem cleanRun_replicate : ∀ k j : Nat,
    cleanRun j (List.replicate k '\n') = emitRun (j + k) := by
  intro k
  induction k with
  | zero => intro j; simp [cleanRun]
  | succ n ih =>
    intro j
    rw [List.replicate_succ]
    rw [show cleanRun j ('\n' :: List.replicate n '\n')
        = cleanRun (j + 1) (List.replicate n '\n') from by simp [cleanRun]]
    rw [ih (j + 1)]
    congr 1
    omega

theorem clean_noTriple (text : List Char) :
    hasTripleNewline (clean_up_text text) = false := cleanRun_noTriple text 0

theorem clean_fix (text : List Char) (h : hasTripleNewline text = false) :
    clean_up_text text = text := by
  have h0 := cleanRun_fix text 0 (by omega) (by simpa using h)
  simpa using h0

theorem hasTriple_of_occursIn :
    ∀ t pat : List Char, occursIn pat t = true → hasTripleNewline pat = true →
      hasTripleNewline t = true := by
  intro t
  induction t with
  | nil =>
    intro pat ho hp
    have : pat = [] := by simpa [occursIn, List.isEmpty_iff] using ho
    rw [this] at hp
    exact absurd hp (by simp [hasTripleNewline])
  | cons c rest ih =>
    intro pat ho hp
    simp only [occursIn, Bool.or_eq_true] at ho
    rcases ho with ho | ho
    · rcases List.isPrefixOf_iff_prefix.mp ho with ⟨s, hs⟩
      rw [← hs]
      exact hasTriple_append_right pat s hp
    · exact hasTriple_cons_of c rest (ih pat ho hp)

/-- Claim C3: cleanup output never contains three consecutive newlines, a
pure run of three or more newlines collapses to exactly two, text without a
triple-newline run is left unchanged, and cleanup is idempotent. -/
theorem clean_up_text_spec :
    (∀ text : List Char, hasTripleNewline (clean_up_text text) = false) ∧
    (∀ k : Nat, 3 ≤ k → clean_up_text (List.replicate k '\n') = ['\n', '\n']) ∧
    (∀ text : List Char, hasTripleNewline text = false → clean_up_text text = text) ∧
    (∀ text : List Char, clean_up_text (clean_up_text text) = clean_up_text text) := by
  refine ⟨clean_noTriple, ?_, clean_fix, ?_⟩
  · intro k hk
    show cleanRun 0 _ = _
    rw [cleanRun_replicate k 0]
    show List.replicate (min (0 + k) 2) '\n' = _
    rw [show min (0 + k) 2 = 2 from by omega]
    rfl
  · intro text
    exact clean_fix _ (clean_noTriple text)

/-- Witness for C3: four newlines collapse to two, and already-clean text
is unchanged. -/
theorem clean_up_text_spec_witness :
    clean_up_text (List.replicate 4 '\n') = ['\n', '\n'] ∧
    clean_up_text "a\n\nb".toList = "a\n\nb".toList := by
  constructor
  · exact clean_up_text_spec.2.1 4 (by omega)
  · exact clean_up_text_spec.2.2.1 "a\n\nb".toList (by decide)

/-- Claim C9: after cleanup the written document contains no three
consecutive newlines anywhere, so no text containing a triple-newline run
(in particular no extracted file content with one) occurs verbatim in it. -/
theorem cleaned_output_no_triple (cfg : Config) (root : List FSEntry)
    (files_data : List (List Char)) (t : List Char) (log : List (List Char)) :
    write_to_file cfg root files_data = (some t, log) →
    hasTripleNewline (clean_up_text t) = false ∧
    (∀ content : List Char, hasTripleNewline content = true →
      occursIn content (clean_up_text t) = false) := by
  intro _
  refine ⟨clean_noTriple t, ?_⟩
  intro content hc
  cases hoc : occursIn content (clean_up_text t) with
  | false => rfl
  | true =>
    have h1 := hasTriple_of_occursIn (clean_up_text t) content hoc hc
    have h2 := clean_noTriple t
    rw [h1] at h2
    exact absurd h2 (by simp)

/-- Witness for C9 at a concrete map-only run. -/
theorem cleaned_output_no_triple_witness :
    hasTripleNewline (clean_up_text (renderOutput (mkConfig [] [] [] true) [] [])) = false ∧
    occursIn ['\n', '\n', '\n']
      (clean_up_text (renderOutput (mkConfig [] [] [] true) [] [])) = false := by
  have h := cleaned_output_no_triple (mkConfig [] [] [] true) [] []
    (renderOutput (mkConfig [] [] [] true) [] []) [] rfl
  exact ⟨h.1, h.2 ['\n', '\n', '\n'] (by decide)⟩

theorem isCont_le {b : Nat} (h : isCont b = true) : b ≤ 191 := by
  simp [isCont] at h; omega

theorem cont2ok3_le {b b2 : Nat} (h : cont2ok3 b b2 = true) : b2 ≤ 191 := by
  unfold cont2ok3 at h
  split at h
  · simp at h; omega
  · split at h
    · simp at h; omega
    · exact isCont_le h

theorem cont2ok4_le {b b2 : Nat} (h : cont2ok4 b b2 = true) : b2 ≤ 191 := by
  unfold cont2ok4 at h
  split at h
  · simp at h; omega
  · split at h
    · simp at h; omega
    · exact isCont_le h

theorem mem255_tail {x : Nat} {l : List Nat} (h : (255 : Nat) ∈ x :: l) (hx : x ≤ 254) :
    (255 : Nat) ∈ l := by
  rcases List.mem_cons.mp h with h' | h'
  · omega
  · exact h'

theorem repl_mem_utf8Fuel :
    ∀ (fuel : Nat) (l : List Nat), l.length ≤ fuel → (255 : Nat) ∈ l →
      replChar ∈ utf8DecodeFuel fuel l := by
  intro fuel l
  induction fuel, l using utf8DecodeFuel.induct
  case case1 =>
    intro hlen hmem
    have hx := List.eq_nil_of_length_eq_zero (Nat.le_zero.mp hlen)
    subst hx
    simp at hmem
  case case2 =>
    intro _ hmem
    simp at hmem
  case case3 fuel b rest hb ih =>
    intro hlen hmem
    simp only [utf8DecodeFuel, if_pos hb]
    exact List.Mem.tail _ (ih (by simp at hlen; omega) (mem255_tail hmem (by omega)))
  case case6 fuel b h1 h2 h3 b2 rest2 hc ih =>
    intro hlen hmem
    simp only [utf8DecodeFuel, if_neg h1, if_neg h2, if_pos h3, if_pos hc]
    exact List.Mem.tail _ (ih (by simp at hlen; omega)
      (mem255_tail (mem255_tail hmem (by omega)) (by have := isCont_le hc; omega)))
  case case10 fuel b h1 h2 h3 h4 b2 hok b3 rest3 hc ih =>
    intro hlen hmem
    simp only [utf8DecodeFuel, if_neg h1, if_neg h2, if_neg h3, if_pos h4, if_pos hok, if_pos hc]
    exact List.Mem.tail _ (ih (by simp at hlen; omega)
      (mem255_tail (mem255_tail (mem255_tail hmem (by omega))
        (by have := cont2ok3_le hok; omega)) (by have := isCont_le hc; omega)))
  case case16 fuel b h1 h2 h3 h4 h5 b2 hok b3 hc3 b4 rest4 hc4 ih =>
    intro hlen hmem
    simp only [utf8DecodeFuel, if_neg h1, if_neg h2, if_neg h3, if_neg h4, if_pos h5,
      if_pos hok, if_pos hc3, if_pos hc4]
    exact List.Mem.tail _ (ih (by simp at hlen; omega)
      (mem255_tail (mem255_tail (mem255_tail (mem255_tail hmem (by omega))
        (by have := cont2ok4_le hok; omega)) (by have := isCont_le hc3; omega))
        (by have := isCont_le hc4; omega)))
  all_goals intro hlen hmem
  all_goals simp [utf8DecodeFuel, *]

/-- Claim C7: for a file whose extension is not one of the recognized
document formats, extraction decodes the raw bytes as UTF-8 with
replacement and always yields a section (the decoder is total, so nothing
is raised), and an undecodable byte such as `0xFF` puts a replacement
character into the produced section. -/
theorem process_file_utf8_replace
    (conv : List Char → Except (List Char) (List Char)) (rel name : List Char)
    (content : List Nat)
    (h : supportedExtensions.any (fun ext => ext.isSuffixOf (pathSuffix name)) = false) :
    (process_file conv rel name content).1
        = some (fileSection (childPath rel name) (pathSuffix name)
            (utf8DecodeReplace content)) ∧
    ((255 : Nat) ∈ content →
      replChar ∈ fileSection (childPath rel name) (pathSuffix name)
        (utf8DecodeReplace content)) := by
  constructor
  · simp [process_file, h]
  · intro hm
    have hr : replChar ∈ utf8DecodeReplace content :=
      repl_mem_utf8Fuel content.length content (le_refl _) hm
    simp only [fileSection, List.mem_append]
    tauto

/-- Witness for C7: a binary file `img.bin` holding the bytes
`0x68 0xFF 0x69` still yields a section, with a replacement character. -/
theorem process_file_utf8_replace_witness :
    (process_file (fun _ => Except.ok []) [] "img.bin".toList [104, 255, 105]).1
        = some (fileSection "img.bin".toList ".bin".toList
            (utf8DecodeReplace [104, 255, 105])) ∧
    replChar ∈ fileSection "img.bin".toList ".bin".toList
        (utf8DecodeReplace [104, 255, 105]) := by
  have h := process_file_utf8_replace (fun _ => Except.ok []) [] "img.bin".toList
    [104, 255, 105] (by decide)
  constructor
  · rw [h.1]
    rfl
  · have h2 := h.2 (by decide)
    rw [show pathSuffix "img.bin".toList = ".bin".toList from rfl] at h2
    rw [show childPath [] "img.bin".toList = "img.bin".toList from rfl] at h2
    exact h2

theorem skipMessage_head (p : List Char) : (skipMessage p).head? = some 'S' := rfl

theorem errorMessage_head (p e : List Char) : (errorMessage p e).head? = some 'E' := rfl

theorem processedMessage_head (p : List Char) (n : Nat) :
    (processedMessage p n).head? = some 'P' := rfl

theorem process_file_log_head (conv : List Char → Except (List Char) (List Char))
    (rel name : List Char) (content : List Nat) :
    ∀ msg ∈ (process_file conv rel name content).2,
      msg.head? = some 'E' ∨ msg.head? = some 'P' := by
  intro msg hmsg
  simp only [process_file] at hmsg
  split at hmsg
  · split at hmsg
    · simp at hmsg
      rw [hmsg]
      exact Or.inl (errorMessage_head _ _)
    · simp at hmsg
      rw [hmsg]
      exact Or.inr (processedMessage_head _ _)
  · simp at hmsg
    rw [hmsg]
    exact Or.inr (processedMessage_head _ _)

theorem fetchOneFile_log_head (conv : List Char → Except (List Char) (List Char))
    (cfg : Config) (rel : List Char) (f : FSEntry) (hp : cfg.ignored_patterns = []) :
    ∀ msg ∈ (fetchOneFile conv cfg rel f).2,
      msg.head? = some 'E' ∨ msg.head? = some 'P' := by
  intro msg hmsg
  cases f with
  | dir n es => simp [fetchOneFile] at hmsg
  | file name content =>
    simp only [fetchOneFile, hp] at hmsg
    rw [show is_ignored [] (childPath rel name) = false from rfl] at hmsg
    simp only [Bool.false_eq_true, if_false] at hmsg
    split at hmsg
    · rcases hpf : process_file conv rel name content with ⟨od, log⟩
      rw [hpf] at hmsg
      have hlog : msg ∈ log := by cases od <;> simpa using hmsg
      exact process_file_log_head conv rel name content msg (by rw [hpf]; exact hlog)
    · simp at hmsg

theorem fetchDir_log_head (conv : List Char → Except (List Char) (List Char)) :
    ∀ (fuel : Nat) (cfg : Config) (rel : List Char) (root : List FSEntry),
      cfg.ignored_patterns = [] →
      ∀ msg ∈ (fetchDirFuel conv cfg fuel rel root).2,
        msg.head? = some 'E' ∨ msg.head? = some 'P' := by
  intro fuel
  induction fuel with
  | zero =>
    intro cfg rel root hp msg hmsg
    simp [fetchDirFuel] at hmsg
  | succ fuel ih =>
    intro cfg rel root hp msg hmsg
    simp only [fetchDirFuel] at hmsg
    rw [List.mem_append] at hmsg
    rcases hmsg with hmsg | hmsg
    · rw [List.mem_flatten] at hmsg
      rcases hmsg with ⟨lg, hlg, hmem⟩
      rw [List.mem_map] at hlg
      rcases hlg with ⟨res, hres, hsnd⟩
      rw [List.mem_map] at hres
      rcases hres with ⟨f, _, hfeq⟩
      rw [← hsnd, ← hfeq] at hmem
      exact fetchOneFile_log_head conv cfg rel f hp msg hmem
    · rw [List.mem_flatten] at hmsg
      rcases hmsg with ⟨lg, hlg, hmem⟩
      rw [List.mem_map] at hlg
      rcases hlg with ⟨res, hres, hsnd⟩
      rw [List.mem_map] at hres
      rcases hres with ⟨d, _, hdeq⟩
      rw [← hsnd, ← hdeq] at hmem
      exact ih cfg _ _ hp msg hmem

/-- Claim C10: with no `.gitignore` at the root the stored pattern list
stays empty, the ignore check returns false on every path, and a run from
a freshly built configuration never prints an ignore-skip diagnostic. -/
theorem no_gitignore_no_skips :
    read_gitignore none [] = [] ∧
    (∀ path : List Char, is_ignored [] path = false) ∧
    (∀ (conv : List Char → Except (List Char) (List Char))
       (included excluded folders : List (List Char)) (map_only : Bool)
       (root : List FSEntry),
      ∀ msg ∈ (fetch_all_files conv (mkConfig included excluded folders map_only)
          none root).2,
        ∀ p : List Char, msg ≠ skipMessage p) := by
  refine ⟨rfl, fun path => rfl, ?_⟩
  intro conv included excluded folders map_only root msg hmsg p heq
  unfold fetch_all_files at hmsg
  split at hmsg
  · simp at hmsg
  · have hhead := fetchDir_log_head conv (fuelFor root)
      { mkConfig included excluded folders map_only with
          ignored_patterns := read_gitignore none
            (mkConfig included excluded folders map_only).ignored_patterns }
      [] root rfl msg hmsg
    rw [heq, skipMessage_head] at hhead
    rcases hhead with h | h <;> simp at h

/-- Witness for C10: a one-file run without `.gitignore` logs only the
processed-file message, which is not a skip diagnostic. -/
theorem no_gitignore_no_skips_witness :
    is_ignored [] "a.py".toList = false ∧
    processedMessage "a.py".toList 1 ≠ skipMessage "a.py".toList := by
  constructor
  · exact no_gitignore_no_skips.2.1 "a.py".toList
  · exact no_gitignore_no_skips.2.2 (fun _ => Except.ok []) [] [] [] false
      [FSEntry.file "a.py".toList [104]] (processedMessage "a.py".toList 1)
      (by decide) "a.py".toList
